import Mathlib

/-!
# PiFX server: command interpreter, event loop and connection handlers

A shallow embedding of `main.go`: `ProcessCommand`, the start of the ticker and
the three branches of the `select` loop of `main`, `ListenTCPConnection` and
`ListenTCPConnectionRaw`.

The strand, the pixel type, the command record and the animation interface come
from the library `pifx-go-lib`; they are modelled here from the description the
specification gives of them, and the functions of `main.go` are translated over
that model.
-/

namespace PiFX

/-! ## Data model -/

/-- An 8-bit channel value (Go `byte`). -/
abbrev Byte := Fin 256

/-- A timestamp (`time.Time`), only ever passed on to `Render`. -/
abbrev Time := Nat

/-- Modelled from the spec: the library type `pifx.Pixel`, three 8-bit channels. -/
structure Pixel where
  R : Byte
  G : Byte
  B : Byte
deriving DecidableEq, Repr

/-- Reasons for which the Go code stops with a run-time panic, or leaves the
behaviour the specification defines. -/
inductive Fault where
  /-- The dereference `*p` of a nil `*pifx.Pixel`. -/
  | nilPixel
  /-- A method call on a nil `animations.Animation` interface value. -/
  | nilAnimation
  /-- An index expression `buf[j]` with `j` at or beyond `len(buf)`. -/
  | indexOutOfRange
  /-- A call `strand.Set(i, _)` with `i` at or beyond the pixel count, which the
  specification leaves undefined. -/
  | setBeyondStrand
deriving DecidableEq, Repr

/-- Modelled from the spec: the library type `pifx.Strand`, an in-memory pixel
buffer together with what has been flushed to the hardware bus so far. -/
structure Strand where
  /-- the in-memory buffer, one entry per LED -/
  pixels : List Pixel
  /-- the frames written to the hardware, oldest first -/
  flushed : List (List Pixel)
deriving DecidableEq, Repr

/-- Modelled from the spec: `Strand.Set(index, Pixel)` writes one pixel into the
in-memory buffer. An index at or beyond the pixel count is outside what the
specification defines and yields no strand. -/
def Strand.Set (s : Strand) (i : Nat) (p : Pixel) : Except Fault Strand :=
  if i < s.pixels.length then
    .ok { s with pixels := s.pixels.set i p }
  else
    .error Fault.setBeyondStrand

/-- Modelled from the spec: `Strand.Wipe(Pixel)` sets every pixel of the
in-memory buffer to the given value. -/
def Strand.Wipe (s : Strand) (p : Pixel) : Strand :=
  { s with pixels := s.pixels.map (fun _ => p) }

/-- Modelled from the spec: `Strand.Write()` flushes the current in-memory
buffer to the hardware and leaves the buffer as it is. -/
def Strand.Write (s : Strand) : Strand :=
  { s with flushed := s.flushed ++ [s.pixels] }

/-- Modelled from the spec: a non-nil value of the library interface
`animations.Animation`, whose one capability is `Render(timestamp, strand)`;
nothing else is assumed of it. -/
structure Renderer where
  Render : Time → Strand → Strand

/-- A value of the interface type `animations.Animation` as held in a Go slice:
`none` is the nil interface value. -/
abbrev Animation := Option Renderer

/-- The dynamic type of `PixelCommand.Payload` (an `interface{}`), as far as the
type assertions of `ProcessCommand` tell values apart. -/
inductive Payload where
  /-- a `[]*pifx.Pixel`; `none` is a nil pointer -/
  | pixels (ps : List (Option Pixel))
  /-- a `[]animations.Animation` -/
  | animations (as : List Animation)
  /-- nil, or a value of any other type -/
  | other

/-- Modelled from the spec: the library type `pifx.PixelCommand`, an integer
action tag with an open-ended payload. -/
structure PixelCommand where
  Action : Int
  Payload : Payload

/-! ## Go slice primitives -/

/-- The built-in `make([]T, n)`: `n` zero values. -/
def make {α : Type} (zero : α) (n : Nat) : List α :=
  List.replicate n zero

/-- The built-in `copy(dst, src)`: the first `min (len dst) (len src)` elements
of `dst` are overwritten by those of `src`, the rest of `dst` stays. -/
def copy {α : Type} (dst src : List α) : List α :=
  src.take (min dst.length src.length) ++ dst.drop (min dst.length src.length)

/-- The slice expression `s[k:]`. -/
def sliceFrom {α : Type} (s : List α) (k : Nat) : List α :=
  s.drop k

/-- The statement `copy(dst[k:], src)` seen from `dst`: elements below `k` stay,
the window from `k` on is overwritten as `copy` does. -/
def copyAt {α : Type} (dst : List α) (k : Nat) (src : List α) : List α :=
  dst.take k ++ copy (sliceFrom dst k) src

/-! ## ProcessCommand -/

/-- The loop `for i, p := range payload { strand.Set(i, *p) }`, started at
index `i` with the elements not yet visited. -/
def setPixelsFrom : Strand → Nat → List (Option Pixel) → Except Fault Strand
  | s, _, [] => .ok s
  | s, i, p :: rest =>
    match p with
    | none => .error Fault.nilPixel
    | some px =>
      match s.Set i px with
      | .ok s' => setPixelsFrom s' (i + 1) rest
      | .error e => .error e

/-- The function `ProcessCommand`: the strand is passed by pointer in Go, so the
strand after the call is returned next to the animation list. -/
def ProcessCommand (strand : Strand) (cmd : PixelCommand) (anims : List Animation) :
    Except Fault (Strand × List Animation) :=
  if cmd.Action = 0 then
    match cmd.Payload with
    | .pixels payload =>
      match setPixelsFrom strand 0 payload with
      | .ok s => .ok (s, anims)
      | .error e => .error e
    | _ => .ok (strand, anims)
  else if cmd.Action = 1 then
    .ok (strand.Wipe ⟨0, 0, 0⟩, make none 0)
  else if cmd.Action = 2 then
    match cmd.Payload with
    | .animations payload =>
      let newAnimations : List Animation := make none (anims.length + payload.length)
      let newAnimations := copy newAnimations anims
      let newAnimations := copyAt newAnimations anims.length payload
      .ok (strand, newAnimations)
    | _ => .ok (strand, anims)
  else
    .ok (strand, anims)

/-- Commands applied one after the other through `ProcessCommand`, each call
receiving the strand and the list the previous one left, as the command branch
of the event loop does. -/
def runCommands : Strand → List Animation → List PixelCommand →
    Except Fault (Strand × List Animation)
  | s, anims, [] => .ok (s, anims)
  | s, anims, c :: cs =>
    match ProcessCommand s c anims with
    | .ok (s', anims') => runCommands s' anims' cs
    | .error e => .error e

/-! ## The event loop of `main` -/

/-- One call the scheduler makes during a tick. -/
inductive Call where
  /-- the call `a.Render(now, &strand)` -/
  | render (a : Renderer) (now : Time)
  /-- the call `strand.Write()` -/
  | write

/-- The loop `for _, a := range anims { a.Render(now, &strand) }`, with the
calls made so far. -/
def renderAll (now : Time) : Strand → List Call → List Animation →
    Except Fault (Strand × List Call)
  | s, calls, [] => .ok (s, calls)
  | s, calls, a :: rest =>
    match a with
    | none => .error Fault.nilAnimation
    | some r => renderAll now (r.Render now s) (calls ++ [Call.render r now]) rest

/-- The branch `case now = <-ticker` of the event loop: the render pass when the
list is not empty, then `strand.Write()`. -/
def tickBranch (now : Time) (strand : Strand) (anims : List Animation) :
    Except Fault (Strand × List Call) :=
  let rendered :=
    if anims.length > 0 then renderAll now strand [] anims else .ok (strand, [])
  match rendered with
  | .ok (s, calls) => .ok (s.Write, calls ++ [Call.write])
  | .error e => .error e

/-- What the raw-frame loop has done so far. -/
structure RawRun where
  strand : Strand
  /-- the indices of `buf` read, in order -/
  reads : List Nat
  /-- the pixel indices passed to `strand.Set`, in order -/
  sets : List Nat
  /-- the number of loop bodies completed -/
  iterations : Nat
deriving DecidableEq, Repr

/-- The loop `for i := 0; i < len(buf); i += 3 { strand.Set(i/3, Pixel{buf[i],
buf[i+1], buf[i+2]}) }`, from index `i` on. -/
def rawLoop (buf : List Byte) (i : Nat) (run : RawRun) : Except Fault RawRun :=
  if i < buf.length then
    match buf[i]?, buf[i + 1]?, buf[i + 2]? with
    | some r, some g, some b =>
      match run.strand.Set (i / 3) ⟨r, g, b⟩ with
      | .ok s =>
        rawLoop buf (i + 3)
          { strand := s, reads := run.reads ++ [i, i + 1, i + 2],
            sets := run.sets ++ [i / 3], iterations := run.iterations + 1 }
      | .error e => .error e
    | _, _, _ => .error Fault.indexOutOfRange
  else
    .ok run
termination_by buf.length - i

/-- The branch `case buf := <-rawChannel` of the event loop. -/
def rawBranch (strand : Strand) (buf : List Byte) : Except Fault RawRun :=
  rawLoop buf 0 { strand := strand, reads := [], sets := [], iterations := 0 }

/-- What one iteration of the `select` receives. -/
inductive Event where
  | command (cmd : PixelCommand)
  | raw (buf : List Byte)
  | tick (now : Time)

/-- The variables of `main` the event loop works on. -/
structure LoopState where
  strand : Strand
  anims : List Animation
  now : Time

/-- One iteration of `for { select { ... } }`, with the calls to `Render` and
`Write` it makes. -/
def loopStep (st : LoopState) : Event → Except Fault (LoopState × List Call)
  | .command cmd =>
    match ProcessCommand st.strand cmd st.anims with
    | .ok (s, anims) => .ok ({ st with strand := s, anims := anims }, [])
    | .error e => .error e
  | .raw buf =>
    match rawBranch st.strand buf with
    | .ok run => .ok ({ st with strand := run.strand }, [])
    | .error e => .error e
  | .tick now =>
    match tickBranch now st.strand st.anims with
    | .ok (s, calls) => .ok ({ st with strand := s, now := now }, calls)
    | .error e => .error e

/-- The iterations of the loop over what the `select` receives, in order, with
the calls made so far. -/
def runLoop : LoopState → List Call → List Event → Except Fault (LoopState × List Call)
  | st, calls, [] => .ok (st, calls)
  | st, calls, ev :: rest =>
    match loopStep st ev with
    | .ok (st', made) => runLoop st' (calls ++ made) rest
    | .error e => .error e

/-- The function `main` once the strand is set up and `off` is false: the list
`anims` starts empty, the statement `now := <-ticker` receives the first tick
the ticker delivers, and the loop then runs over what its `select` receives. -/
def mainFrom (strand : Strand) (first : Time) (events : List Event) :
    Except Fault (LoopState × List Call) :=
  let anims : List Animation := make none 0
  let now := first
  runLoop { strand := strand, anims := anims, now := now } [] events

/-! ## Connection handlers -/

/-- What one call `t.Read(buf)` returned: the bytes it stored at the front of
`buf` (their number is `n`) and whether `err` was non-nil. -/
structure ReadResult where
  bytes : List Byte
  err : Bool
deriving DecidableEq, Repr

/-- The function `ListenTCPConnectionRaw`, over the results of the successive
reads of one connection: the buffers sent on the raw channel, in order. The
global `pixels` is the first argument; it is the count `main` built the strand
from, a natural number whose triple is computed exactly. -/
def ListenTCPConnectionRaw (pixels : Nat) : List ReadResult → List (List Byte)
  | [] => []
  | r :: rest =>
    let buf := copy (make (0 : Byte) (pixels * 3)) r.bytes
    let n := r.bytes.length
    if r.err then
      []
    else if n = pixels * 3 then
      buf :: ListenTCPConnectionRaw pixels rest
    else
      ListenTCPConnectionRaw pixels rest

/-- The raw listener feeding the event loop: every buffer one connection
forwards goes through the raw branch, in order. -/
def rawFeed (strand : Strand) : List (List Byte) → Except Fault Strand
  | [] => .ok strand
  | buf :: rest =>
    match rawBranch strand buf with
    | .ok run => rawFeed run.strand rest
    | .error e => .error e

/-- What is observable of one run of `ListenTCPConnection`. -/
structure ConnectionRun where
  /-- the commands sent on the command channel, in order -/
  forwarded : List PixelCommand
  /-- whether the handler returned, which runs the deferred `t.Close()` -/
  closed : Bool
  /-- the bytes the handler wrote back to the peer -/
  replied : List Byte

/-- The function `ListenTCPConnection`, over the results of the successive calls
`dec.Decode(cmd)` of one connection: `none` is a non-nil `err`. -/
def ListenTCPConnection : List (Option PixelCommand) → ConnectionRun
  | [] => { forwarded := [], closed := false, replied := [] }
  | none :: _ => { forwarded := [], closed := true, replied := [] }
  | some cmd :: rest =>
    let run := ListenTCPConnection rest
    { run with forwarded := cmd :: run.forwarded }

/-! ## Vocabulary of the properties -/

/-- Whether the type assertion `cmd.Payload.([]*pifx.Pixel)` succeeds. -/
def Payload.isPixels : Payload → Bool
  | .pixels _ => true
  | _ => false

/-- Whether the type assertion `cmd.Payload.([]animations.Animation)` succeeds. -/
def Payload.isAnimations : Payload → Bool
  | .animations _ => true
  | _ => false

/-- A command whose payload has not the shape its tag requires: tagged
`SetPixels` (0) without a pixel sequence, or tagged `QueueAnimations` (2)
without an animation sequence. `Clear` (1) requires no payload shape. -/
def Malformed (cmd : PixelCommand) : Prop :=
  (cmd.Action = 0 ∧ cmd.Payload.isPixels = false) ∨
  (cmd.Action = 2 ∧ cmd.Payload.isAnimations = false)

instance (cmd : PixelCommand) : Decidable (Malformed cmd) := by
  unfold Malformed
  infer_instance

/-- Whether a call is `strand.Write()`. -/
def Call.isWrite : Call → Bool
  | .write => true
  | .render _ _ => false

/-- Whether an event of the loop is a tick. -/
def Event.isTick : Event → Bool
  | .tick _ => true
  | _ => false

/-- The ticks the ticker has delivered to `main`: the one received before the
loop, then those the `select` received. -/
def ticksDelivered (first : Time) (events : List Event) : List Time :=
  first :: events.filterMap (fun ev => match ev with
    | .tick now => some now
    | _ => none)

/-- The all-off pixel `(0,0,0)`. -/
def black : Pixel := ⟨0, 0, 0⟩

/-- The length of the pixel sequence a command carries, 0 when it carries
none. -/
def PixelCommand.payloadLength (cmd : PixelCommand) : Nat :=
  match cmd.Payload with
  | .pixels ps => ps.length
  | _ => 0

/-- The value `payload[i]` of the pixel sequence a command carries. -/
def PixelCommand.payloadPixel (cmd : PixelCommand) (i : Nat) : Option Pixel :=
  match cmd.Payload with
  | .pixels ps => (ps[i]?).join
  | _ => none

/-- A well-formed `SetPixels` command for a strand of `n` pixels: action 0, a
pixel sequence no longer than `n`, no nil pixel in it. -/
def wellFormedSetPixels (n : Nat) (cmd : PixelCommand) : Bool :=
  decide (cmd.Action = 0) &&
    match cmd.Payload with
    | .pixels ps => decide (ps.length ≤ n) && ps.all Option.isSome
    | _ => false

/-- The last command of a sequence whose payload length is greater than `i`. -/
def lastCovering (cmds : List PixelCommand) (i : Nat) : Option PixelCommand :=
  cmds.reverse.find? (fun c => decide (i < c.payloadLength))

/-- The pixel a raw frame holds for index `k`: its bytes `[3k, 3k+3)`. -/
def frameAt (buf : List Byte) (k : Nat) : Option Pixel :=
  match buf[3 * k]?, buf[3 * k + 1]?, buf[3 * k + 2]? with
  | some r, some g, some b => some ⟨r, g, b⟩
  | _, _, _ => none

/-! ## Sample values -/

/-- A strand of three dark pixels with nothing flushed yet. -/
def sampleStrand : Strand := ⟨[black, black, black], []⟩

/-- The pixel `(255,0,0)`. -/
def red : Pixel := ⟨255, 0, 0⟩

/-- The pixel `(0,255,0)`. -/
def green : Pixel := ⟨0, 255, 0⟩

/-- The pixel `(0,0,255)`. -/
def blue : Pixel := ⟨0, 0, 255⟩

/-- An animation that paints the first pixel red. -/
def paintFirstRed : Renderer :=
  ⟨fun _ s => { s with pixels := s.pixels.set 0 red }⟩

/-! ## Lemmas on the slice primitives -/

theorem copy_make_front {α : Type} (z : α) (L : List α) (b : Nat) :
    copy (make z (L.length + b)) L = L ++ List.replicate b z := by
  unfold copy make
  have hmin : min (List.replicate (L.length + b) z).length L.length = L.length := by
    simp
  rw [hmin, List.take_length]
  congr 1
  rw [List.drop_replicate]
  simp

theorem copyAt_suffix {α : Type} (z : α) (L P : List α) :
    copyAt (L ++ List.replicate P.length z) L.length P = L ++ P := by
  unfold copyAt copy sliceFrom
  simp

/-- The well-formed arm of `case 2` computes the concatenation. -/
theorem queue_arm_eq (L P : List Animation) :
    copyAt (copy (make none (L.length + P.length)) L) L.length P = L ++ P := by
  rw [copy_make_front, copyAt_suffix]

theorem processCommand_queue (strand : Strand) (L P : List Animation) :
    ProcessCommand strand ⟨2, .animations P⟩ L = .ok (strand, L ++ P) := by
  simp [ProcessCommand, queue_arm_eq]

theorem processCommand_clear (strand : Strand) (L : List Animation) (p : Payload) :
    ProcessCommand strand ⟨1, p⟩ L = .ok (strand.Wipe ⟨0, 0, 0⟩, []) := by
  simp [ProcessCommand, make]

theorem processCommand_malformed (strand : Strand) (cmd : PixelCommand)
    (L : List Animation) (h : Malformed cmd) :
    ProcessCommand strand cmd L = .ok (strand, L) := by
  obtain ⟨a, p⟩ := cmd
  rcases h with ⟨ha, hp⟩ | ⟨ha, hp⟩
  · simp only at ha
    subst ha
    cases p <;> simp_all [ProcessCommand, Payload.isPixels]
  · simp only at ha
    subst ha
    cases p <;> simp_all [ProcessCommand, Payload.isAnimations]

theorem processCommand_unknown (strand : Strand) (cmd : PixelCommand)
    (L : List Animation) (h0 : cmd.Action ≠ 0) (h1 : cmd.Action ≠ 1) (h2 : cmd.Action ≠ 2) :
    ProcessCommand strand cmd L = .ok (strand, L) := by
  simp [ProcessCommand, h0, h1, h2]

theorem setPixelsFrom_spec (ps : List (Option Pixel)) :
    ∀ (s : Strand) (i : Nat), (∀ p ∈ ps, p ≠ none) → i + ps.length ≤ s.pixels.length →
      ∃ s', setPixelsFrom s i ps = .ok s' ∧ s'.flushed = s.flushed ∧
        s'.pixels.length = s.pixels.length ∧
        ∀ j, s'.pixels[j]? =
          if i ≤ j ∧ j < i + ps.length then (ps[j - i]?).join else s.pixels[j]? := by
  induction ps with
  | nil =>
    intro s i _ _
    refine ⟨s, rfl, rfl, rfl, ?_⟩
    intro j
    have h0 : ¬ (i ≤ j ∧ j < i + ([] : List (Option Pixel)).length) := by
      simp only [List.length_nil]
      omega
    rw [if_neg h0]
  | cons p rest ih =>
    intro s i hsome hlen
    have hp : p ≠ none := hsome p (List.mem_cons_self _ _)
    obtain ⟨q, rfl⟩ := Option.ne_none_iff_exists'.mp hp
    have hi : i < s.pixels.length := by
      simp only [List.length_cons] at hlen
      omega
    have hrest : ∀ p ∈ rest, p ≠ none := fun p h => hsome p (List.mem_cons_of_mem _ h)
    obtain ⟨s', hrun, hfl, hlen', hpix⟩ :=
      ih { s with pixels := s.pixels.set i q } (i + 1) hrest (by
        simp only [List.length_cons] at hlen
        simp only [List.length_set]
        omega)
    refine ⟨s', ?_, ?_, ?_, ?_⟩
    · simp only [setPixelsFrom, Strand.Set, hi, if_true]
      exact hrun
    · simpa using hfl
    · simpa using hlen'
    · intro j
      rw [hpix j]
      simp only [List.length_cons]
      by_cases hji : j = i
      · subst hji
        have h1 : ¬ (j + 1 ≤ j ∧ j < j + 1 + rest.length) := by omega
        have h2 : (j ≤ j ∧ j < j + (rest.length + 1)) := by omega
        simp [h1, h2, hi]
      · by_cases hlt : j < i
        · have h1 : ¬ (i + 1 ≤ j ∧ j < i + 1 + rest.length) := by omega
          have h2 : ¬ (i ≤ j ∧ j < i + (rest.length + 1)) := by omega
          simp only [h1, h2, if_false]
          exact List.getElem?_set_ne (by omega)
        · obtain ⟨d, rfl⟩ : ∃ d, j = i + 1 + d := ⟨j - (i + 1), by omega⟩
          have e1 : i + 1 + d - (i + 1) = d := by omega
          have e2 : i + 1 + d - i = d + 1 := by omega
          rw [e1, e2, List.getElem?_cons_succ]
          by_cases hd : d < rest.length
          · have h1 : (i + 1 ≤ i + 1 + d ∧ i + 1 + d < i + 1 + rest.length) := by omega
            have h2 : (i ≤ i + 1 + d ∧ i + 1 + d < i + (rest.length + 1)) := by omega
            simp only [h1, h2, and_self, if_true]
          · have h1 : ¬ (i + 1 ≤ i + 1 + d ∧ i + 1 + d < i + 1 + rest.length) := by omega
            have h2 : ¬ (i ≤ i + 1 + d ∧ i + 1 + d < i + (rest.length + 1)) := by omega
            simp only [h1, h2, if_false]
            exact List.getElem?_set_ne (by omega)

theorem wellFormedSetPixels_elim (n : Nat) (cmd : PixelCommand)
    (h : wellFormedSetPixels n cmd = true) :
    ∃ ps, cmd = ⟨0, .pixels ps⟩ ∧ ps.length ≤ n ∧ ∀ p ∈ ps, p ≠ none := by
  obtain ⟨a, pl⟩ := cmd
  cases pl with
  | pixels ps =>
    simp only [wellFormedSetPixels, Bool.and_eq_true, decide_eq_true_eq, List.all_eq_true] at h
    obtain ⟨ha, hl, hall⟩ := h
    refine ⟨ps, by rw [ha], hl, ?_⟩
    intro p hp hnone
    have := hall p hp
    rw [hnone] at this
    simp at this
  | animations as => simp [wellFormedSetPixels] at h
  | other => simp [wellFormedSetPixels] at h

/-- One well-formed `SetPixels` command overwrites the indices its payload
covers and nothing else. -/
theorem processCommand_setPixels (strand : Strand) (cmd : PixelCommand)
    (anims : List Animation) (h : wellFormedSetPixels strand.pixels.length cmd = true) :
    ∃ s', ProcessCommand strand cmd anims = .ok (s', anims) ∧
      s'.flushed = strand.flushed ∧ s'.pixels.length = strand.pixels.length ∧
      ∀ j, s'.pixels[j]? =
        if j < cmd.payloadLength then cmd.payloadPixel j else strand.pixels[j]? := by
  obtain ⟨ps, rfl, hlen, hsome⟩ := wellFormedSetPixels_elim _ _ h
  obtain ⟨s', hrun, hfl, hl, hpix⟩ := setPixelsFrom_spec ps strand 0 hsome (by omega)
  refine ⟨s', ?_, hfl, hl, ?_⟩
  · simp [ProcessCommand, hrun]
  · intro j
    rw [hpix j]
    simp [PixelCommand.payloadLength, PixelCommand.payloadPixel]

theorem lastCovering_cons (c : PixelCommand) (cs : List PixelCommand) (i : Nat) :
    lastCovering (c :: cs) i =
      (lastCovering cs i).or (if i < c.payloadLength then some c else none) := by
  simp [lastCovering]

theorem runCommands_setPixels (cmds : List PixelCommand) :
    ∀ (strand : Strand) (anims : List Animation),
      (∀ c ∈ cmds, wellFormedSetPixels strand.pixels.length c = true) →
      ∃ s', runCommands strand anims cmds = .ok (s', anims) ∧
        s'.flushed = strand.flushed ∧ s'.pixels.length = strand.pixels.length ∧
        ∀ i, s'.pixels[i]? =
          match lastCovering cmds i with
          | some c => c.payloadPixel i
          | none => strand.pixels[i]? := by
  induction cmds with
  | nil =>
    intro strand anims _
    exact ⟨strand, rfl, rfl, rfl, fun i => by simp [lastCovering]⟩
  | cons c cs ih =>
    intro strand anims h
    obtain ⟨s1, hrun1, hfl1, hlen1, hpix1⟩ :=
      processCommand_setPixels strand c anims (h c (List.mem_cons_self _ _))
    obtain ⟨s', hrun, hfl, hlen, hpix⟩ := ih s1 anims (by
      intro c' hc'
      rw [hlen1]
      exact h c' (List.mem_cons_of_mem _ hc'))
    refine ⟨s', ?_, hfl.trans hfl1, hlen.trans hlen1, ?_⟩
    · simp only [runCommands, hrun1]
      exact hrun
    · intro i
      rw [hpix i, lastCovering_cons]
      cases hcov : lastCovering cs i with
      | some c' => simp
      | none =>
        simp only [Option.or, hpix1 i]
        by_cases hi : i < c.payloadLength <;> simp [hi]

theorem rawLoop_spec (buf : List Byte) (m : Nat) (hbuf : buf.length = 3 * m) (d : Nat) :
    ∀ (k : Nat) (run : RawRun), k + d = m → m ≤ run.strand.pixels.length →
      ∃ run', rawLoop buf (3 * k) run = .ok run' ∧
        run'.reads = run.reads ++ List.range' (3 * k) (3 * d) ∧
        run'.sets = run.sets ++ List.range' k d ∧
        run'.iterations = run.iterations + d ∧
        run'.strand.flushed = run.strand.flushed ∧
        run'.strand.pixels.length = run.strand.pixels.length ∧
        ∀ j, run'.strand.pixels[j]? =
          if k ≤ j ∧ j < m then frameAt buf j else run.strand.pixels[j]? := by
  induction d with
  | zero =>
    intro k run hk _
    refine ⟨run, ?_, by simp, by simp, by simp, rfl, rfl, ?_⟩
    · rw [rawLoop]
      have : ¬ (3 * k < buf.length) := by omega
      simp [this]
    · intro j
      have : ¬ (k ≤ j ∧ j < m) := by omega
      rw [if_neg this]
  | succ d ih =>
    intro k run hk hm
    have h0 : 3 * k < buf.length := by omega
    have h1 : 3 * k + 1 < buf.length := by omega
    have h2 : 3 * k + 2 < buf.length := by omega
    have hdiv : 3 * k / 3 = k := by omega
    have hset : k < run.strand.pixels.length := by omega
    obtain ⟨run', hrun, hreads, hsets, hiter, hfl, hlen, hpix⟩ :=
      ih (k + 1)
        { strand := { run.strand with
            pixels := run.strand.pixels.set k ⟨buf[3 * k], buf[3 * k + 1], buf[3 * k + 2]⟩ },
          reads := run.reads ++ [3 * k, 3 * k + 1, 3 * k + 2],
          sets := run.sets ++ [k],
          iterations := run.iterations + 1 }
        (by omega) (by simpa using hm)
    refine ⟨run', ?_, ?_, ?_, ?_, ?_, ?_, ?_⟩
    · rw [rawLoop]
      simp only [h0, if_true, List.getElem?_eq_getElem h0, List.getElem?_eq_getElem h1,
        List.getElem?_eq_getElem h2, Strand.Set, hdiv, hset]
      have e : 3 * k + 3 = 3 * (k + 1) := by ring
      rw [e]
      exact hrun
    · rw [hreads]
      have e : 3 * (d + 1) = 3 * d + 3 := by ring
      rw [e, ← List.range'_append_1 (3 * k) 3 (3 * d)]
      have e3 : 3 * k + 3 = 3 * (k + 1) := by ring
      simp [List.range', e3]
    · rw [hsets, List.range'_succ]
      simp
    · rw [hiter]
      simp only
      omega
    · rw [hfl]
    · rw [hlen]
      simp
    · intro j
      rw [hpix j]
      by_cases hjk : j = k
      · subst hjk
        have c1 : ¬ (j + 1 ≤ j ∧ j < m) := by omega
        have c2 : (j ≤ j ∧ j < m) := by omega
        rw [if_neg c1, if_pos c2]
        simp [frameAt, List.getElem?_eq_getElem h0, List.getElem?_eq_getElem h1,
          List.getElem?_eq_getElem h2, hset]
      · by_cases hin : k + 1 ≤ j ∧ j < m
        · have c2 : (k ≤ j ∧ j < m) := by omega
          rw [if_pos hin, if_pos c2]
        · have c2 : ¬ (k ≤ j ∧ j < m) := by omega
          rw [if_neg hin, if_neg c2]
          exact List.getElem?_set_ne (fun h => hjk h.symm)

/-- On a buffer whose length is a multiple of 3 the raw loop never reads `buf`
out of range, whatever the size of the strand. -/
theorem rawLoop_no_index_fault (buf : List Byte) (m : Nat) (hbuf : buf.length = 3 * m)
    (d : Nat) :
    ∀ (k : Nat) (run : RawRun), k + d = m →
      rawLoop buf (3 * k) run ≠ .error Fault.indexOutOfRange := by
  induction d with
  | zero =>
    intro k run hk
    rw [rawLoop]
    have : ¬ (3 * k < buf.length) := by omega
    simp [this]
  | succ d ih =>
    intro k run hk
    have h0 : 3 * k < buf.length := by omega
    have h1 : 3 * k + 1 < buf.length := by omega
    have h2 : 3 * k + 2 < buf.length := by omega
    have e : 3 * k + 3 = 3 * (k + 1) := by ring
    rw [rawLoop]
    simp only [h0, if_true, List.getElem?_eq_getElem h0, List.getElem?_eq_getElem h1,
      List.getElem?_eq_getElem h2, Strand.Set]
    split
    · rw [e]
      exact ih (k + 1) _ (by omega)
    · rename_i e' heq
      split at heq
      · simp at heq
      · simp only [Except.error.injEq] at heq
        rw [← heq]
        simp

theorem copy_same_length {α : Type} (dst src : List α) (h : dst.length = src.length) :
    copy dst src = src := by
  unfold copy
  rw [h, Nat.min_self, List.take_length, ← h, List.drop_length, List.append_nil]

theorem listenRaw_forward (pixels : Nat) (r : ReadResult) (rest : List ReadResult)
    (herr : r.err = false) (hlen : r.bytes.length = pixels * 3) :
    ListenTCPConnectionRaw pixels (r :: rest) = r.bytes :: ListenTCPConnectionRaw pixels rest := by
  have hc : copy (make (0 : Byte) (pixels * 3)) r.bytes = r.bytes :=
    copy_same_length _ _ (by simp [make, hlen])
  simp [ListenTCPConnectionRaw, herr, hlen, hc]

theorem listenRaw_discard (pixels : Nat) (r : ReadResult) (rest : List ReadResult)
    (herr : r.err = false) (hlen : r.bytes.length ≠ pixels * 3) :
    ListenTCPConnectionRaw pixels (r :: rest) = ListenTCPConnectionRaw pixels rest := by
  simp [ListenTCPConnectionRaw, herr, hlen]

theorem listenRaw_stop (pixels : Nat) (r : ReadResult) (rest : List ReadResult)
    (herr : r.err = true) :
    ListenTCPConnectionRaw pixels (r :: rest) = [] := by
  simp [ListenTCPConnectionRaw, herr]

/-- Every buffer the raw handler forwards is the content of one read that
returned exactly `pixels * 3` bytes without error. -/
theorem listenRaw_mem (pixels : Nat) (reads : List ReadResult) (buf : List Byte)
    (h : buf ∈ ListenTCPConnectionRaw pixels reads) :
    buf.length = pixels * 3 ∧ ∃ r ∈ reads, r.err = false ∧ r.bytes = buf := by
  induction reads with
  | nil => simp [ListenTCPConnectionRaw] at h
  | cons r rest ih =>
    cases herr : r.err with
    | true =>
      rw [listenRaw_stop pixels r rest herr] at h
      simp at h
    | false =>
      by_cases hlen : r.bytes.length = pixels * 3
      · rw [listenRaw_forward pixels r rest herr hlen] at h
        rcases List.mem_cons.mp h with hb | hb
        · subst hb
          exact ⟨hlen, r, List.mem_cons_self _ _, herr, rfl⟩
        · obtain ⟨h1, r', hr', h2⟩ := ih hb
          exact ⟨h1, r', List.mem_cons_of_mem _ hr', h2⟩
      · rw [listenRaw_discard pixels r rest herr hlen] at h
        obtain ⟨h1, r', hr', h2⟩ := ih h
        exact ⟨h1, r', List.mem_cons_of_mem _ hr', h2⟩

/-- The raw branch on a frame of `3 * m` bytes over a strand of at least `m`
pixels. -/
theorem rawBranch_spec (strand : Strand) (buf : List Byte) (m : Nat)
    (hbuf : buf.length = 3 * m) (hm : m ≤ strand.pixels.length) :
    ∃ run, rawBranch strand buf = .ok run ∧
      run.reads = List.range (3 * m) ∧ run.sets = List.range m ∧ run.iterations = m ∧
      run.strand.flushed = strand.flushed ∧
      run.strand.pixels.length = strand.pixels.length ∧
      ∀ j, run.strand.pixels[j]? = if j < m then frameAt buf j else strand.pixels[j]? := by
  obtain ⟨run, hrun, hreads, hsets, hiter, hfl, hlen, hpix⟩ :=
    rawLoop_spec buf m hbuf m 0
      { strand := strand, reads := [], sets := [], iterations := 0 } (by omega) hm
  refine ⟨run, ?_, ?_, ?_, ?_, hfl, hlen, ?_⟩
  · simpa [rawBranch] using hrun
  · simpa [List.range_eq_range'] using hreads
  · simpa [List.range_eq_range'] using hsets
  · simpa using hiter
  · intro j
    simpa using hpix j

theorem frameAt_eq (buf : List Byte) (m k : Nat) (hbuf : buf.length = 3 * m) (hk : k < m) :
    ∃ r g b, buf[3 * k]? = some r ∧ buf[3 * k + 1]? = some g ∧ buf[3 * k + 2]? = some b ∧
      frameAt buf k = some ⟨r, g, b⟩ := by
  have h0 : 3 * k < buf.length := by omega
  have h1 : 3 * k + 1 < buf.length := by omega
  have h2 : 3 * k + 2 < buf.length := by omega
  refine ⟨buf[3 * k], buf[3 * k + 1], buf[3 * k + 2], List.getElem?_eq_getElem h0,
    List.getElem?_eq_getElem h1, List.getElem?_eq_getElem h2, ?_⟩
  simp [frameAt, List.getElem?_eq_getElem h0, List.getElem?_eq_getElem h1,
    List.getElem?_eq_getElem h2]

theorem renderAll_spec (now : Time) (rs : List Renderer) :
    ∀ (s : Strand) (calls : List Call),
      renderAll now s calls (rs.map some) =
        .ok (rs.foldl (fun acc r => r.Render now acc) s,
          calls ++ rs.map (fun r => Call.render r now)) := by
  induction rs with
  | nil =>
    intro s calls
    simp [renderAll]
  | cons r rest ih =>
    intro s calls
    simp [renderAll, ih]

theorem tickBranch_spec (now : Time) (strand : Strand) (rs : List Renderer) :
    tickBranch now strand (rs.map some) =
      .ok ((rs.foldl (fun acc r => r.Render now acc) strand).Write,
        rs.map (fun r => Call.render r now) ++ [Call.write]) := by
  cases rs with
  | nil => simp [tickBranch]
  | cons r rest =>
    have h := renderAll_spec now (r :: rest) strand []
    simp only [List.map_cons] at h
    simp [tickBranch, h]

theorem listenTCP_stops (cmds : List PixelCommand) (rest : List (Option PixelCommand)) :
    ListenTCPConnection (cmds.map some ++ none :: rest) =
      { forwarded := cmds, closed := true, replied := [] } := by
  induction cmds with
  | nil => simp [ListenTCPConnection]
  | cons c cs ih => simp [ListenTCPConnection, ih]

theorem listenTCP_open (cmds : List PixelCommand) :
    ListenTCPConnection (cmds.map some) =
      { forwarded := cmds, closed := false, replied := [] } := by
  induction cmds with
  | nil => simp [ListenTCPConnection]
  | cons c cs ih => simp [ListenTCPConnection, ih]

theorem lastCovering_some (cmds : List PixelCommand) (i : Nat) (c : PixelCommand)
    (h : lastCovering cmds i = some c) : c ∈ cmds ∧ i < c.payloadLength := by
  unfold lastCovering at h
  have hm := List.mem_of_find?_eq_some h
  have hp := List.find?_some h
  exact ⟨List.mem_reverse.mp hm, by simpa using hp⟩

theorem processCommand_cases (strand : Strand) (cmd : PixelCommand) (L : List Animation)
    (r : Strand × List Animation) (h : ProcessCommand strand cmd L = .ok r) :
    r.2 = L ∨ (cmd.Action = 1 ∧ r.2 = []) ∨
      (cmd.Action = 2 ∧ ∃ P, cmd.Payload = .animations P ∧ r.2 = L ++ P) := by
  obtain ⟨a, p⟩ := cmd
  by_cases h0 : a = 0
  · subst h0
    left
    cases p with
    | pixels ps =>
      simp only [ProcessCommand, if_true] at h
      split at h
      · simp only [Except.ok.injEq] at h
        rw [← h]
      · simp at h
    | animations as =>
      simp only [ProcessCommand, if_true, Except.ok.injEq] at h
      rw [← h]
    | other =>
      simp only [ProcessCommand, if_true, Except.ok.injEq] at h
      rw [← h]
  · by_cases h1 : a = 1
    · subst h1
      right
      left
      rw [processCommand_clear] at h
      simp only [Except.ok.injEq] at h
      rw [← h]
      exact ⟨rfl, rfl⟩
    · by_cases h2 : a = 2
      · subst h2
        cases p with
        | animations P =>
          right
          right
          rw [processCommand_queue] at h
          simp only [Except.ok.injEq] at h
          rw [← h]
          exact ⟨rfl, P, rfl, rfl⟩
        | pixels ps =>
          left
          rw [processCommand_malformed strand ⟨2, .pixels ps⟩ L (Or.inr ⟨rfl, rfl⟩)] at h
          simp only [Except.ok.injEq] at h
          rw [← h]
        | other =>
          left
          rw [processCommand_malformed strand ⟨2, .other⟩ L (Or.inr ⟨rfl, rfl⟩)] at h
          simp only [Except.ok.injEq] at h
          rw [← h]
      · left
        rw [processCommand_unknown _ _ _ h0 h1 h2] at h
        simp only [Except.ok.injEq] at h
        rw [← h]

theorem processCommand_keeps (strand : Strand) (cmd : PixelCommand) (L : List Animation)
    (r : Strand × List Animation) (h : ProcessCommand strand cmd L = .ok r)
    (hc : cmd.Action ≠ 1) : L <+: r.2 := by
  rcases processCommand_cases strand cmd L r h with h1 | ⟨h1, _⟩ | ⟨_, P, _, h1⟩
  · rw [h1]
  · exact absurd h1 hc
  · rw [h1]
    exact ⟨P, rfl⟩

theorem runCommands_keeps (cmds : List PixelCommand) :
    ∀ (strand : Strand) (L : List Animation) (r : Strand × List Animation),
      (∀ c ∈ cmds, c.Action ≠ 1) → runCommands strand L cmds = .ok r → L <+: r.2 := by
  induction cmds with
  | nil =>
    intro strand L r _ h
    simp only [runCommands, Except.ok.injEq] at h
    rw [← h]
  | cons c cs ih =>
    intro strand L r hc h
    simp only [runCommands] at h
    split at h
    · rename_i s1 L1 h1
      have p1 : L <+: L1 :=
        processCommand_keeps strand c L (s1, L1) h1 (hc c (List.mem_cons_self _ _))
      exact p1.trans (ih s1 L1 r (fun c' hc' => hc c' (List.mem_cons_of_mem _ hc')) h)
    · simp at h

theorem processCommand_returns (strand : Strand) (cmd : PixelCommand) (L : List Animation)
    (h : cmd.Action ≠ 0) : ∃ r, ProcessCommand strand cmd L = .ok r := by
  obtain ⟨a, p⟩ := cmd
  simp only [ProcessCommand]
  simp only at h
  rw [if_neg h]
  split
  · exact ⟨_, rfl⟩
  · split
    · split <;> exact ⟨_, rfl⟩
    · exact ⟨_, rfl⟩

theorem renderAll_writes (now : Time) (L : List Animation) :
    ∀ (s : Strand) (calls : List Call) (r : Strand × List Call),
      renderAll now s calls L = .ok r →
        r.2.filter Call.isWrite = calls.filter Call.isWrite := by
  induction L with
  | nil =>
    intro s calls r h
    simp only [renderAll, Except.ok.injEq] at h
    rw [← h]
  | cons a rest ih =>
    intro s calls r h
    cases a with
    | none => simp [renderAll] at h
    | some a =>
      simp only [renderAll] at h
      rw [ih _ _ r h]
      simp [Call.isWrite]

theorem tickBranch_writes (now : Time) (strand : Strand) (L : List Animation)
    (r : Strand × List Call) (h : tickBranch now strand L = .ok r) :
    (r.2.filter Call.isWrite).length = 1 := by
  simp only [tickBranch] at h
  split at h
  · rename_i s calls hr
    simp only [Except.ok.injEq] at h
    rw [← h]
    have hcalls : calls.filter Call.isWrite = [] := by
      split at hr
      · simpa using renderAll_writes now L strand [] (s, calls) hr
      · simp only [Except.ok.injEq, Prod.mk.injEq] at hr
        rw [← hr.2]
        rfl
    simp [hcalls, Call.isWrite]
  · simp at h

theorem loopStep_writes (st : LoopState) (ev : Event) (r : LoopState × List Call)
    (h : loopStep st ev = .ok r) :
    (r.2.filter Call.isWrite).length = ([ev].filter Event.isTick).length := by
  cases ev with
  | command cmd =>
    simp only [loopStep] at h
    split at h
    · simp only [Except.ok.injEq] at h
      rw [← h]
      rfl
    · simp at h
  | raw buf =>
    simp only [loopStep] at h
    split at h
    · simp only [Except.ok.injEq] at h
      rw [← h]
      rfl
    · simp at h
  | tick now =>
    simp only [loopStep] at h
    split at h
    · rename_i s calls ht
      simp only [Except.ok.injEq] at h
      rw [← h]
      simpa [Event.isTick] using tickBranch_writes now st.strand st.anims (s, calls) ht
    · simp at h

theorem runLoop_writes (events : List Event) :
    ∀ (st : LoopState) (calls : List Call) (r : LoopState × List Call),
      runLoop st calls events = .ok r →
        (r.2.filter Call.isWrite).length =
          (calls.filter Call.isWrite).length + (events.filter Event.isTick).length := by
  induction events with
  | nil =>
    intro st calls r h
    simp only [runLoop, Except.ok.injEq] at h
    rw [← h]
    simp
  | cons ev rest ih =>
    intro st calls r h
    simp only [runLoop] at h
    split at h
    · rename_i st' made hstep
      rw [ih st' (calls ++ made) r h]
      have hw := loopStep_writes st ev (st', made) hstep
      simp only [List.filter_append, List.length_append]
      rw [hw]
      cases hev : ev.isTick <;> simp [List.filter_cons, hev]
      omega
    · simp at h

theorem all_renderers (L : List Animation) (h : ∀ a ∈ L, a ≠ none) :
    ∃ rs : List Renderer, L = rs.map some := by
  induction L with
  | nil => exact ⟨[], rfl⟩
  | cons a rest ih =>
    obtain ⟨rs, hrs⟩ := ih (fun b hb => h b (List.mem_cons_of_mem _ hb))
    obtain ⟨r, hr⟩ := Option.ne_none_iff_exists'.mp (h a (List.mem_cons_self _ _))
    exact ⟨r :: rs, by rw [hr, hrs, List.map_cons]⟩

/-! ## The properties of the specification -/

/-- C1: for every strand, every animation list and every sequence of well-formed
`SetPixels` commands (action 0, a sequence of non-nil pixels no longer than the
strand) applied in order through `ProcessCommand`, the run returns with the
animation list untouched, and for every index `i` the final pixel `i` is
`payload[i]` of the last command whose payload is longer than `i`, or the
initial pixel `i` when no command covers `i`. -/
theorem setPixels_last_writer (strand : Strand) (anims : List Animation)
    (cmds : List PixelCommand)
    (h : ∀ c ∈ cmds, wellFormedSetPixels strand.pixels.length c = true) :
    ∃ s', runCommands strand anims cmds = .ok (s', anims) ∧
      s'.pixels.length = strand.pixels.length ∧
      (∀ i c, lastCovering cmds i = some c →
        ∃ ps px, c.Payload = .pixels ps ∧ i < ps.length ∧ ps[i]? = some (some px) ∧
          s'.pixels[i]? = some px) ∧
      (∀ i, lastCovering cmds i = none → s'.pixels[i]? = strand.pixels[i]?) := by
  obtain ⟨s', hrun, _, hlen, hpix⟩ := runCommands_setPixels cmds strand anims h
  refine ⟨s', hrun, hlen, ?_, ?_⟩
  · intro i c hc
    obtain ⟨hmem, hcov⟩ := lastCovering_some cmds i c hc
    obtain ⟨ps, rfl, _, hsome⟩ := wellFormedSetPixels_elim _ _ (h c hmem)
    have hi : i < ps.length := by simpa [PixelCommand.payloadLength] using hcov
    have hne : ps[i] ≠ none := hsome _ (List.getElem_mem hi)
    obtain ⟨px, hpx⟩ := Option.ne_none_iff_exists'.mp hne
    refine ⟨ps, px, rfl, hi, ?_, ?_⟩
    · rw [List.getElem?_eq_getElem hi, hpx]
    · have := hpix i
      rw [hc] at this
      simp only [PixelCommand.payloadPixel, List.getElem?_eq_getElem hi, hpx] at this
      simpa using this
  · intro i hnone
    have := hpix i
    rw [hnone] at this
    exact this

theorem setPixels_last_writer_witness :
    (∀ c ∈ [(⟨0, .pixels [some red, some green]⟩ : PixelCommand), ⟨0, .pixels [some blue]⟩],
      wellFormedSetPixels sampleStrand.pixels.length c = true) ∧
    ∃ s', runCommands sampleStrand []
        [⟨0, .pixels [some red, some green]⟩, ⟨0, .pixels [some blue]⟩] = .ok (s', []) ∧
      s'.pixels = [blue, green, black] := by
  have hwf : ∀ c ∈ [(⟨0, .pixels [some red, some green]⟩ : PixelCommand),
      ⟨0, .pixels [some blue]⟩], wellFormedSetPixels sampleStrand.pixels.length c = true := by
    intro c hc
    simp only [List.mem_cons, List.mem_singleton, List.not_mem_nil, or_false] at hc
    rcases hc with rfl | rfl <;> rfl
  refine ⟨hwf, ?_⟩
  obtain ⟨s', hrun, _, _, _⟩ := setPixels_last_writer sampleStrand [] _ hwf
  refine ⟨s', hrun, ?_⟩
  have hval : runCommands sampleStrand []
      [⟨0, .pixels [some red, some green]⟩, ⟨0, .pixels [some blue]⟩] =
      .ok (⟨[blue, green, black], []⟩, []) := by
    simp [runCommands, ProcessCommand, setPixelsFrom, Strand.Set, sampleStrand]
  rw [hval] at hrun
  simp only [Except.ok.injEq, Prod.mk.injEq] at hrun
  rw [← hrun.1]

/-- C2: for every strand and every animation list, `ProcessCommand` with a
`Clear` command (action 1, whatever it carries) returns the empty animation list
and a strand of the same length whose every pixel is `(0,0,0)`, with nothing
flushed; applying `Clear` twice in a row ends in exactly the state one `Clear`
ends in. -/
theorem clear_resets_and_idempotent (strand : Strand) (L : List Animation) (p q : Payload) :
    ∃ s', ProcessCommand strand ⟨1, p⟩ L = .ok (s', []) ∧
      s'.pixels.length = strand.pixels.length ∧
      (∀ i, i < strand.pixels.length → s'.pixels[i]? = some ⟨0, 0, 0⟩) ∧
      (∀ px ∈ s'.pixels, px = ⟨0, 0, 0⟩) ∧
      s'.flushed = strand.flushed ∧
      ProcessCommand s' ⟨1, q⟩ [] = .ok (s', []) ∧
      runCommands strand L [⟨1, p⟩, ⟨1, q⟩] = runCommands strand L [⟨1, p⟩] := by
  refine ⟨strand.Wipe ⟨0, 0, 0⟩, processCommand_clear strand L p, ?_, ?_, ?_, rfl, ?_, ?_⟩
  · simp [Strand.Wipe]
  · intro i hi
    simp only [Strand.Wipe, List.getElem?_map, List.getElem?_eq_getElem hi, Option.map_some']
  · intro px hpx
    simp only [Strand.Wipe, List.mem_map] at hpx
    obtain ⟨_, _, rfl⟩ := hpx
    rfl
  · rw [processCommand_clear]
    simp [Strand.Wipe]
  · simp only [runCommands, processCommand_clear]
    simp [Strand.Wipe]

/-- C3: for every animation list `L` and every well-formed `QueueAnimations`
command (action 2) with payload `P`, `ProcessCommand` returns exactly `L`
followed by `P` and leaves the strand alone: the result has length
`len(L)+len(P)`, its element `k` is `L[k]` below `len(L)` and `P[k-len(L)]` from
there on; from `[A, B]`, queuing `[C]` and then `[D, E]` gives
`[A, B, C, D, E]`. -/
theorem queueAnimations_appends (strand : Strand) (L P : List Animation)
    (A B C D E : Animation) :
    (∃ r, ProcessCommand strand ⟨2, .animations P⟩ L = .ok (strand, r) ∧
      r = L ++ P ∧ r.length = L.length + P.length ∧
      (∀ k, k < L.length → r[k]? = L[k]?) ∧
      (∀ k, L.length ≤ k → r[k]? = P[k - L.length]?)) ∧
    ProcessCommand strand ⟨2, .animations [C]⟩ [A, B] = .ok (strand, [A, B, C]) ∧
    ProcessCommand strand ⟨2, .animations [D, E]⟩ [A, B, C] =
      .ok (strand, [A, B, C, D, E]) ∧
    runCommands strand [A, B] [⟨2, .animations [C]⟩, ⟨2, .animations [D, E]⟩] =
      .ok (strand, [A, B, C, D, E]) := by
  refine ⟨⟨L ++ P, processCommand_queue strand L P, rfl, List.length_append L P, ?_, ?_⟩,
    ?_, ?_, ?_⟩
  · intro k hk
    exact List.getElem?_append_left hk
  · intro k hk
    exact List.getElem?_append_right hk
  · exact processCommand_queue strand [A, B] [C]
  · exact processCommand_queue strand [A, B, C] [D, E]
  · simp only [runCommands, processCommand_queue]
    rfl

/-- C4: for every strand and animation list, a malformed command (tagged
`SetPixels` without a pixel sequence, or tagged `QueueAnimations` without an
animation sequence) leaves both exactly as they were: `ProcessCommand` returns
the input strand and the input list, and the loop iteration that receives the
command ends in the state it started in, having called neither `Render` nor
`Write`. -/
theorem malformed_command_dropped (strand : Strand) (cmd : PixelCommand)
    (L : List Animation) (now : Time) (h : Malformed cmd) :
    ProcessCommand strand cmd L = .ok (strand, L) ∧
      loopStep ⟨strand, L, now⟩ (.command cmd) = .ok (⟨strand, L, now⟩, []) := by
  have hp := processCommand_malformed strand cmd L h
  refine ⟨hp, ?_⟩
  simp only [loopStep, hp]

theorem malformed_command_dropped_witness :
    Malformed ⟨0, .animations [some paintFirstRed]⟩ ∧
    Malformed ⟨2, .pixels [some red]⟩ ∧
    ProcessCommand sampleStrand ⟨0, .animations [some paintFirstRed]⟩ [] =
      .ok (sampleStrand, []) ∧
    ProcessCommand sampleStrand ⟨2, .pixels [some red]⟩ [some paintFirstRed] =
      .ok (sampleStrand, [some paintFirstRed]) :=
  ⟨by decide, by decide,
    (malformed_command_dropped sampleStrand ⟨0, .animations [some paintFirstRed]⟩ [] 0
      (by decide)).1,
    (malformed_command_dropped sampleStrand ⟨2, .pixels [some red]⟩ [some paintFirstRed] 0
      (by decide)).1⟩

/-- C5: for every pixel count, every strand of that many pixels and every read
of the raw connection handler that returned without error: a record of exactly
`3 * pixels` bytes is forwarded as it is, and the raw branch of the event loop
then sets pixel `k` to `(byte[3k], byte[3k+1], byte[3k+2])` for every `k` below
the pixel count; a read of any other size forwards nothing, is not merged with
the reads that follow, and leaves the strand as it was. -/
theorem raw_record_applied_or_discarded (pixels : Nat) (strand : Strand) (r : ReadResult)
    (rest : List ReadResult) (hs : strand.pixels.length = pixels) :
    (r.err = false → r.bytes.length = 3 * pixels →
      ListenTCPConnectionRaw pixels (r :: rest) =
        r.bytes :: ListenTCPConnectionRaw pixels rest ∧
      ∃ run, rawBranch strand r.bytes = .ok run ∧
        rawFeed strand (ListenTCPConnectionRaw pixels [r]) = .ok run.strand ∧
        run.strand.pixels.length = pixels ∧
        ∀ k, k < pixels →
          ∃ a b c, r.bytes[3 * k]? = some a ∧ r.bytes[3 * k + 1]? = some b ∧
            r.bytes[3 * k + 2]? = some c ∧ run.strand.pixels[k]? = some ⟨a, b, c⟩) ∧
    (r.bytes.length ≠ 3 * pixels →
      ListenTCPConnectionRaw pixels [r] = [] ∧
      rawFeed strand (ListenTCPConnectionRaw pixels [r]) = .ok strand ∧
      (r.err = false →
        ListenTCPConnectionRaw pixels (r :: rest) = ListenTCPConnectionRaw pixels rest)) := by
  constructor
  · intro herr hlen
    have hlen' : r.bytes.length = pixels * 3 := by omega
    refine ⟨listenRaw_forward pixels r rest herr hlen', ?_⟩
    obtain ⟨run, hrun, _, _, _, _, hl, hpix⟩ :=
      rawBranch_spec strand r.bytes pixels hlen (by omega)
    refine ⟨run, hrun, ?_, by omega, ?_⟩
    · rw [listenRaw_forward pixels r [] herr hlen']
      simp [ListenTCPConnectionRaw, rawFeed, hrun]
    · intro k hk
      obtain ⟨a, b, c, ha, hb, hc, hf⟩ := frameAt_eq r.bytes pixels k hlen hk
      refine ⟨a, b, c, ha, hb, hc, ?_⟩
      rw [hpix k, if_pos hk, hf]
  · intro hlen
    have hlen' : r.bytes.length ≠ pixels * 3 := by omega
    have hnil : ListenTCPConnectionRaw pixels [r] = [] := by
      cases herr : r.err with
      | true => exact listenRaw_stop pixels r [] herr
      | false =>
        rw [listenRaw_discard pixels r [] herr hlen']
        rfl
    refine ⟨hnil, ?_, fun herr => listenRaw_discard pixels r rest herr hlen'⟩
    rw [hnil]
    rfl

theorem raw_record_applied_or_discarded_witness :
    (ListenTCPConnectionRaw 1 [⟨[7, 8, 9], false⟩] = [[7, 8, 9]] ∧
      ∃ run, rawBranch ⟨[black], []⟩ [7, 8, 9] = .ok run ∧
        run.strand.pixels[0]? = some ⟨7, 8, 9⟩) ∧
    (ListenTCPConnectionRaw 1 [⟨[7, 8], false⟩] = [] ∧
      rawFeed ⟨[black], []⟩ (ListenTCPConnectionRaw 1 [⟨[7, 8], false⟩]) =
        .ok ⟨[black], []⟩) := by
  constructor
  · obtain ⟨hfwd, run, hrun, _, _, hpix⟩ :=
      (raw_record_applied_or_discarded 1 ⟨[black], []⟩ ⟨[7, 8, 9], false⟩ [] rfl).1 rfl rfl
    refine ⟨hfwd, run, hrun, ?_⟩
    obtain ⟨a, b, c, ha, hb, hc, hp⟩ := hpix 0 (by decide)
    simp at ha hb hc
    rw [hp, ← ha, ← hb, ← hc]
  · obtain ⟨hnil, hfeed, _⟩ :=
      (raw_record_applied_or_discarded 1 ⟨[black], []⟩ ⟨[7, 8], false⟩ [] rfl).2
        (by decide)
    exact ⟨hnil, hfeed⟩

/-- C6, as the code has it: for every tick the `select` of the event loop
receives, with timestamp `now`, every strand and every animation list `L` that
holds no nil animation: the scheduler calls `Render(now, strand)` on each
animation of `L` once, in list order, each on the strand the previous one left,
and then calls `strand.Write()` once; when `L` is empty no `Render` is called,
the flush still happens and the pixel values are those before the tick. The
iteration leaves the animation list as it was. Over a whole run of `main` the
number of flushes is the number of ticks the loop received; the tick `main`
receives before the loop is not among them. -/
theorem tick_renders_in_order_then_flushes (now prev : Time) (strand : Strand)
    (L : List Animation) (hL : ∀ a ∈ L, a ≠ none) :
    (∃ rs : List Renderer, L = rs.map some ∧
      tickBranch now strand L =
        .ok ((rs.foldl (fun acc r => r.Render now acc) strand).Write,
          rs.map (fun r => Call.render r now) ++ [Call.write]) ∧
      loopStep ⟨strand, L, prev⟩ (.tick now) =
        .ok (⟨(rs.foldl (fun acc r => r.Render now acc) strand).Write, L, now⟩,
          rs.map (fun r => Call.render r now) ++ [Call.write])) ∧
    tickBranch now strand [] = .ok (strand.Write, [Call.write]) ∧
    strand.Write.pixels = strand.pixels ∧
    strand.Write.flushed = strand.flushed ++ [strand.pixels] ∧
    (∀ (L' : List Animation) (r : LoopState × List Call),
      loopStep ⟨strand, L', prev⟩ (.tick now) = .ok r → r.1.anims = L') ∧
    (∀ (first : Time) (events : List Event) (r : LoopState × List Call),
      mainFrom strand first events = .ok r →
        (r.2.filter Call.isWrite).length = (events.filter Event.isTick).length) := by
  refine ⟨?_, tickBranch_spec now strand [], rfl, rfl, ?_, ?_⟩
  · obtain ⟨rs, rfl⟩ := all_renderers L hL
    refine ⟨rs, rfl, tickBranch_spec now strand rs, ?_⟩
    simp only [loopStep, tickBranch_spec]
  · intro L' r h
    simp only [loopStep] at h
    split at h
    · simp only [Except.ok.injEq] at h
      rw [← h]
    · simp at h
  · intro first events r h
    have := runLoop_writes events _ [] r h
    simpa using this

theorem tick_renders_in_order_then_flushes_witness :
    (∀ a ∈ [some paintFirstRed], a ≠ none) ∧
    tickBranch 5 sampleStrand [some paintFirstRed] =
      .ok (⟨[red, black, black], [[red, black, black]]⟩,
        [Call.render paintFirstRed 5, Call.write]) ∧
    ∃ rs : List Renderer, [some paintFirstRed] = rs.map some ∧
      tickBranch 5 sampleStrand [some paintFirstRed] =
        .ok ((rs.foldl (fun acc r => r.Render 5 acc) sampleStrand).Write,
          rs.map (fun r => Call.render r 5) ++ [Call.write]) := by
  have hL : ∀ a ∈ [some paintFirstRed], a ≠ none := by
    intro a ha
    simp only [List.mem_singleton] at ha
    rw [ha]
    simp
  obtain ⟨rs, hrs, htick, _⟩ :=
    (tick_renders_in_order_then_flushes 5 0 sampleStrand [some paintFirstRed] hL).1
  exact ⟨hL, rfl, rs, hrs, htick⟩

/-- C6 as stated fails in two places. The first tick the ticker delivers is
received by `now := <-ticker`, before the loop, and is neither rendered nor
flushed, so the flushes of a run are one fewer than the ticks delivered. And an
animation list can hold a nil animation (`QueueAnimations` appends whatever the
payload holds): the tick then stops at the call on the nil value, before any
`Write`. -/
theorem first_tick_is_not_flushed :
    ticksDelivered 7 [] = [7] ∧
    mainFrom sampleStrand 7 [] = .ok (⟨sampleStrand, [], 7⟩, []) ∧
    ¬ (∀ (strand : Strand) (first : Time) (events : List Event)
        (r : LoopState × List Call), mainFrom strand first events = .ok r →
          (r.2.filter Call.isWrite).length = (ticksDelivered first events).length) ∧
    ProcessCommand sampleStrand ⟨2, .animations [none]⟩ [] = .ok (sampleStrand, [none]) ∧
    tickBranch 7 sampleStrand [none] = .error Fault.nilAnimation ∧
    loopStep ⟨sampleStrand, [none], 0⟩ (.tick 7) = .error Fault.nilAnimation ∧
    mainFrom sampleStrand 0 [.command ⟨2, .animations [none]⟩, .tick 7] =
      .error Fault.nilAnimation := by
  refine ⟨rfl, rfl, ?_, processCommand_queue sampleStrand [] [none], rfl, rfl, ?_⟩
  · intro h
    have := h sampleStrand 7 [] (⟨sampleStrand, [], 7⟩, []) rfl
    simp [ticksDelivered] at this
  · simp only [mainFrom, runLoop, loopStep, make, List.replicate,
      processCommand_queue sampleStrand [] [none]]
    rfl

/-- C7: for every sequence of decode results on one command connection, the
handler forwards exactly the commands decoded before the first failure, in the
order decoded, forwards nothing at or after it, then returns (which closes the
connection) and writes nothing back to the peer; while no decode has failed the
handler has forwarded every command and is still open. -/
theorem connection_forwards_until_first_failure (results : List (Option PixelCommand))
    (cmds : List PixelCommand) (rest : List (Option PixelCommand)) :
    (ListenTCPConnection results).forwarded =
      (results.takeWhile Option.isSome).reduceOption ∧
    (ListenTCPConnection results).closed = results.any Option.isNone ∧
    (ListenTCPConnection results).replied = [] ∧
    ListenTCPConnection (cmds.map some ++ none :: rest) =
      { forwarded := cmds, closed := true, replied := [] } ∧
    ListenTCPConnection (cmds.map some) =
      { forwarded := cmds, closed := false, replied := [] } := by
  refine ⟨?_, ?_, ?_, listenTCP_stops cmds rest, listenTCP_open cmds⟩
  · induction results with
    | nil => rfl
    | cons x xs ih =>
      cases x with
      | none => rfl
      | some c =>
        simp only [ListenTCPConnection, List.takeWhile_cons, Option.isSome_some, if_true,
          List.reduceOption_cons_of_some, ih]
  · induction results with
    | nil => rfl
    | cons x xs ih =>
      cases x with
      | none => rfl
      | some c => simp [ListenTCPConnection, ih]
  · induction results with
    | nil => rfl
    | cons x xs ih =>
      cases x with
      | none => rfl
      | some c => simp [ListenTCPConnection, ih]

/-- C8: for every strand, every animation list `L` and every command of any
action tag and payload, the list `ProcessCommand` returns is `L` itself, or the
empty list when the command is `Clear`, or `L` followed by the payload when the
command is a well-formed `QueueAnimations`; a command other than `Clear` keeps
`L` as a prefix of the result, and so does any sequence of such commands, so the
length never decreases and no entry is removed or reordered. Commands other
than `SetPixels` always return. -/
theorem animation_list_append_only (strand : Strand) (cmd : PixelCommand)
    (L : List Animation) (r : Strand × List Animation)
    (h : ProcessCommand strand cmd L = .ok r) :
    (r.2 = L ∨ (cmd.Action = 1 ∧ r.2 = []) ∨
      (cmd.Action = 2 ∧ ∃ P, cmd.Payload = .animations P ∧ r.2 = L ++ P)) ∧
    (cmd.Action ≠ 1 → L <+: r.2 ∧ L.length ≤ r.2.length) ∧
    (∀ (cmds : List PixelCommand) (s : Strand) (L0 : List Animation)
        (r' : Strand × List Animation),
      (∀ c ∈ cmds, c.Action ≠ 1) → runCommands s L0 cmds = .ok r' →
        L0 <+: r'.2 ∧ L0.length ≤ r'.2.length) ∧
    (∀ (c : PixelCommand) (s : Strand) (L0 : List Animation), c.Action ≠ 0 →
      ∃ r', ProcessCommand s c L0 = .ok r') := by
  refine ⟨processCommand_cases strand cmd L r h, ?_, ?_, ?_⟩
  · intro hc
    have hp := processCommand_keeps strand cmd L r h hc
    exact ⟨hp, hp.length_le⟩
  · intro cmds s L0 r' hc hr
    have hp := runCommands_keeps cmds s L0 r' hc hr
    exact ⟨hp, hp.length_le⟩
  · intro c s L0 hc
    exact processCommand_returns s c L0 hc

theorem animation_list_append_only_witness :
    ProcessCommand sampleStrand ⟨2, .animations [none]⟩ [some paintFirstRed] =
      .ok (sampleStrand, [some paintFirstRed, none]) ∧
    [some paintFirstRed] <+: [some paintFirstRed, none] :=
  ⟨processCommand_queue sampleStrand [some paintFirstRed] [none],
    ((animation_list_append_only sampleStrand ⟨2, .animations [none]⟩ [some paintFirstRed]
      (sampleStrand, [some paintFirstRed, none])
      (processCommand_queue sampleStrand [some paintFirstRed] [none])).2.1 (by decide)).1⟩

/-- C9: each operation leaves the other half of the state untouched. For every
strand and animation list: `ProcessCommand` with a command tagged `SetPixels`
returns the list it was given whenever it returns, and it returns on every
well-formed one; `ProcessCommand` with a command tagged `QueueAnimations`
returns the strand it was given, whatever the payload; a raw frame applied by
the event loop leaves the animation list as it was whenever the iteration
completes, and it completes on every frame of `3 * m` bytes with `m` at most the
pixel count. -/
theorem operations_frame (strand : Strand) (anims : List Animation) (now : Time) :
    (∀ (payload : Payload) (r : Strand × List Animation),
      ProcessCommand strand ⟨0, payload⟩ anims = .ok r → r.2 = anims) ∧
    (∀ cmd, wellFormedSetPixels strand.pixels.length cmd = true →
      ∃ s', ProcessCommand strand cmd anims = .ok (s', anims)) ∧
    (∀ payload : Payload, ∃ L', ProcessCommand strand ⟨2, payload⟩ anims = .ok (strand, L')) ∧
    (∀ (buf : List Byte) (r : LoopState × List Call),
      loopStep ⟨strand, anims, now⟩ (.raw buf) = .ok r → r.1.anims = anims) ∧
    (∀ (buf : List Byte) (m : Nat), buf.length = 3 * m → m ≤ strand.pixels.length →
      ∃ s', loopStep ⟨strand, anims, now⟩ (.raw buf) = .ok (⟨s', anims, now⟩, [])) := by
  refine ⟨?_, ?_, ?_, ?_, ?_⟩
  · intro payload r h
    rcases processCommand_cases strand ⟨0, payload⟩ anims r h with h1 | ⟨h1, _⟩ | ⟨h1, _⟩
    · exact h1
    · simp at h1
    · simp at h1
  · intro cmd hwf
    obtain ⟨s', hrun, _⟩ := processCommand_setPixels strand cmd anims hwf
    exact ⟨s', hrun⟩
  · intro payload
    cases payload with
    | animations P => exact ⟨anims ++ P, processCommand_queue strand anims P⟩
    | pixels ps =>
      exact ⟨anims, processCommand_malformed strand ⟨2, .pixels ps⟩ anims (Or.inr ⟨rfl, rfl⟩)⟩
    | other =>
      exact ⟨anims, processCommand_malformed strand ⟨2, .other⟩ anims (Or.inr ⟨rfl, rfl⟩)⟩
  · intro buf r h
    simp only [loopStep] at h
    split at h
    · simp only [Except.ok.injEq] at h
      rw [← h]
    · simp at h
  · intro buf m hbuf hm
    obtain ⟨run, hrun, _⟩ := rawBranch_spec strand buf m hbuf hm
    exact ⟨run.strand, by simp only [loopStep, hrun]⟩

/-- C10: the raw branch never indexes out of bounds on a frame the raw listener
can forward. Every buffer sent on the raw channel has length exactly
`3 * pixels`; on every buffer whose length is a multiple of 3 the loop never
reads `buf` out of range, and over a strand long enough it reads the indices
`0 .. len(buf)-1` in order, each once, completes after `len(buf)/3` iterations
and calls `strand.Set` on the pixel indices `0 .. len(buf)/3 - 1`, each once:
the strand it leaves has the same length, pixel `j` below `len(buf)/3` holds
`(buf[3j], buf[3j+1], buf[3j+2])`, every other pixel and what was flushed are
as before. On a forwarded buffer the indices written are all below the pixel
count of the strand. -/
theorem raw_branch_in_bounds (pixels : Nat) (strand : Strand) (reads : List ReadResult)
    (buf : List Byte) (hs : strand.pixels.length = pixels)
    (hbuf : buf ∈ ListenTCPConnectionRaw pixels reads) :
    buf.length = 3 * pixels ∧
    (∀ (b : List Byte) (s : Strand), 3 ∣ b.length →
      rawBranch s b ≠ .error Fault.indexOutOfRange) ∧
    (∀ (b : List Byte) (s : Strand), 3 ∣ b.length → b.length / 3 ≤ s.pixels.length →
      ∃ run, rawBranch s b = .ok run ∧ run.reads = List.range b.length ∧
        run.iterations = b.length / 3 ∧ run.sets = List.range (b.length / 3) ∧
        run.strand.flushed = s.flushed ∧
        run.strand.pixels.length = s.pixels.length ∧
        (∀ j, j < b.length / 3 →
          ∃ r g c, b[3 * j]? = some r ∧ b[3 * j + 1]? = some g ∧ b[3 * j + 2]? = some c ∧
            run.strand.pixels[j]? = some ⟨r, g, c⟩) ∧
        (∀ j, b.length / 3 ≤ j → run.strand.pixels[j]? = s.pixels[j]?)) ∧
    ∃ run, rawBranch strand buf = .ok run ∧
      run.reads = List.range buf.length ∧ (∀ j ∈ run.reads, j < buf.length) ∧
      run.iterations = buf.length / 3 ∧
      run.sets = List.range (buf.length / 3) ∧ (∀ j ∈ run.sets, j < strand.pixels.length) ∧
      run.strand.flushed = strand.flushed ∧
      run.strand.pixels.length = strand.pixels.length ∧
      (∀ j, j < strand.pixels.length →
        ∃ r g c, buf[3 * j]? = some r ∧ buf[3 * j + 1]? = some g ∧ buf[3 * j + 2]? = some c ∧
          run.strand.pixels[j]? = some ⟨r, g, c⟩) := by
  have hlen : buf.length = 3 * pixels := by
    have := (listenRaw_mem pixels reads buf hbuf).1
    omega
  have hgen : ∀ (b : List Byte) (s : Strand), 3 ∣ b.length → b.length / 3 ≤ s.pixels.length →
      ∃ run, rawBranch s b = .ok run ∧ run.reads = List.range b.length ∧
        run.iterations = b.length / 3 ∧ run.sets = List.range (b.length / 3) ∧
        run.strand.flushed = s.flushed ∧
        run.strand.pixels.length = s.pixels.length ∧
        (∀ j, j < b.length / 3 →
          ∃ r g c, b[3 * j]? = some r ∧ b[3 * j + 1]? = some g ∧ b[3 * j + 2]? = some c ∧
            run.strand.pixels[j]? = some ⟨r, g, c⟩) ∧
        (∀ j, b.length / 3 ≤ j → run.strand.pixels[j]? = s.pixels[j]?) := by
    intro b s hdvd hle
    obtain ⟨m, hm⟩ := hdvd
    have hdiv : b.length / 3 = m := by omega
    rw [hdiv] at hle
    obtain ⟨run, hrun, hreads, hsets, hiter, hfl, hl, hpix⟩ := rawBranch_spec s b m hm hle
    refine ⟨run, hrun, by rw [hreads, hm], by rw [hiter, hdiv], by rw [hsets, hdiv], hfl, hl,
      ?_, ?_⟩
    · intro j hj
      rw [hdiv] at hj
      obtain ⟨r, g, c, hr, hg, hc, hf⟩ := frameAt_eq b m j hm hj
      refine ⟨r, g, c, hr, hg, hc, ?_⟩
      rw [hpix j, if_pos hj, hf]
    · intro j hj
      rw [hdiv] at hj
      have hnot : ¬ j < m := by omega
      rw [hpix j, if_neg hnot]
  refine ⟨hlen, ?_, hgen, ?_⟩
  · intro b s hdvd
    obtain ⟨m, hm⟩ := hdvd
    exact rawLoop_no_index_fault b m hm m 0 _ (by omega)
  · have hdiv : buf.length / 3 = pixels := by omega
    obtain ⟨run, hrun, hreads, hiter, hsets, hfl, hl, hin, _⟩ :=
      hgen buf strand ⟨pixels, hlen⟩ (by omega)
    refine ⟨run, hrun, hreads, ?_, hiter, hsets, ?_, hfl, hl, ?_⟩
    · intro j hj
      rw [hreads] at hj
      exact List.mem_range.mp hj
    · intro j hj
      rw [hsets] at hj
      have := List.mem_range.mp hj
      omega
    · intro j hj
      exact hin j (by omega)

theorem raw_branch_in_bounds_witness :
    [7, 8, 9] ∈ ListenTCPConnectionRaw 1 [⟨[7, 8], false⟩, ⟨[7, 8, 9], false⟩] ∧
    ∃ run, rawBranch ⟨[black], []⟩ [7, 8, 9] = .ok run ∧
      run.reads = [0, 1, 2] ∧ run.iterations = 1 ∧ run.sets = [0] ∧
      run.strand.pixels[0]? = some ⟨7, 8, 9⟩ := by
  have hmem : ([7, 8, 9] : List Byte) ∈
      ListenTCPConnectionRaw 1 [⟨[7, 8], false⟩, ⟨[7, 8, 9], false⟩] := by
    rw [listenRaw_discard 1 ⟨[7, 8], false⟩ _ rfl (by decide),
      listenRaw_forward 1 ⟨[7, 8, 9], false⟩ [] rfl rfl]
    exact List.mem_cons_self _ _
  refine ⟨hmem, ?_⟩
  obtain ⟨_, _, _, run, hrun, hreads, _, hiter, hsets, _, _, _, hpix⟩ :=
    raw_branch_in_bounds 1 ⟨[black], []⟩ _ [7, 8, 9] rfl hmem
  refine ⟨run, hrun, hreads, hiter, hsets, ?_⟩
  obtain ⟨r, g, c, hr, hg, hc, hp⟩ := hpix 0 (by decide)
  simp at hr hg hc
  rw [hp, ← hr, ← hg, ← hc]

end PiFX
